import Mathlib

/-!
# Verification of the pwsafe-matrix synchronization engine

A shallow embedding of the core of the `pwsafe` repository: the differential
encoding (`src/src/diff.rs`), the database façade's rebase and lock-file path
computation (`src/src/pwsafe.rs`), the producer/consumer communicator
(`src/src/communicator.rs`) and the single-owner work loop
(`src/bin/pwsafe-matrix/src/cmd/sync.rs`).

The password-file codec (`pwsafer`) is the external collaborator: its decrypted
field stream is modelled as a list of `(type, data)` fields; encryption, MACs
and file I/O live outside the model.  Field classification (`pwsafer`'s
`field.rs` is not part of the sources, only its callers) is modelled from the
spec.  The file is organized as definitions first, then theorems; the only
theorems among the definitions are the termination bounds the well-founded
definitions require.
-/

namespace PwsafeSpec

/-! ## Field stream model (external codec interface) -/

/-- A raw field of the decrypted pwsafe field stream: a type code and its data
bytes.  The keyed codec (`PwsafeReader`/`PwsafeWriter`) produces and consumes
exactly this sequence; we model the decrypted stream directly. -/
abbrev RawField := Nat × List Nat

/-- The end-of-record / end-of-header field type code `0xFF`. -/
def eorTy : Nat := 0xFF

/-- Modelled from the spec: `pwsafer::field::PwsafeRecordField` is absent from
the sources (only callers remain).  Per the spec's data model, a record is
identified by a 16-byte identifier in field type `0x01`, notes are `0x05`, and
a record is terminated by an end-of-record field (`0xFF`); no other
classification is observable by the diff engine. -/
inductive RecField
  | uuid (u : List Nat)
  | notes (data : List Nat)
  | endOfRecord
  | other (ty : Nat) (data : List Nat)
deriving DecidableEq

/-- Modelled from the spec: classification of a raw field, `PwsafeRecordField::new`. -/
def RecField.new (ty : Nat) (data : List Nat) : RecField :=
  if ty = 0x01 ∧ data.length = 16 then .uuid data
  else if ty = eorTy then .endOfRecord
  else if ty = 0x05 then .notes data
  else .other ty data

/-- A field mark.  In the source (`diff.rs`, `FieldMark::new`) this is the
SHA-256 of `pepper || 0x00 || ty || 0x01 || data`; the hash comes from the
external `sha2` crate, so the fingerprint is modelled as the (injective) tuple
that is hashed. -/
structure FieldMark where
  pepper : List Nat
  ty : Nat
  data : List Nat
deriving DecidableEq

/-- `diff.rs`: `Field` — one parsed field of a record descriptor. -/
structure Field where
  pwsafe : RecField
  raw_ty : Nat
  raw_data : List Nat
  mark : FieldMark
deriving DecidableEq

/-- Build the `Field` stored by `fill_entry` for one raw field. -/
def mkField (pepper : List Nat) (f : RawField) : Field :=
  { pwsafe := RecField.new f.1 f.2
    raw_ty := f.1
    raw_data := f.2
    mark := { pepper := pepper, ty := f.1, data := f.2 } }

/-- Split one record group off the stream: all fields up to and including the
first end-of-record field (or the whole stream if none occurs).  This is the
set of fields consumed by one call of `DiffableBase::fill_entry`. -/
def splitRecord : List RawField → List RawField × List RawField
  | [] => ([], [])
  | f :: rest =>
    if f.1 = eorTy then ([f], rest)
    else
      let p := splitRecord rest
      (f :: p.1, p.2)

/-- Termination bound: the remainder after a record group never grows. -/
theorem splitRecord_rest_le (s : List RawField) :
    (splitRecord s).2.length ≤ s.length := by
  induction s with
  | nil => simp [splitRecord]
  | cons g r ih =>
    by_cases h : g.1 = eorTy
    · simp [splitRecord, h]
    · simp only [splitRecord, h, if_false]
      exact le_trans ih (Nat.le_succ _)

/-- Termination bound: a record group split off a non-empty stream strictly
shrinks the remainder. -/
theorem splitRecord_rest_lt (f : RawField) (rest : List RawField) :
    (splitRecord (f :: rest)).2.length < (f :: rest).length := by
  by_cases h : f.1 = eorTy
  · simp [splitRecord, h]
  · simp only [splitRecord, h, if_false]
    simpa using Nat.lt_succ_of_le (splitRecord_rest_le rest)

/-- The identifier of a record group: the data of the *last* `0x01` identifier
field in the group (`fill_entry` overwrites `field_uuid` on every identifier
field it sees). -/
def groupUuid (g : List RawField) : Option (List Nat) :=
  g.foldl (fun acc f =>
    match RecField.new f.1 f.2 with
    | .uuid u => some u
    | _ => acc) none

/-- `DiffableBase::fill_entry`: consume one record group, returning its
identifier (if any), its parsed fields, and the remaining stream. -/
def fillEntry (pepper : List Nat) (s : List RawField) :
    Option (List Nat) × List Field × List RawField :=
  let p := splitRecord s
  (groupUuid p.1, p.1.map (mkField pepper), p.2)

/-- Termination bound: a group that carries an identifier is non-empty, so the
remaining stream is strictly shorter. -/
theorem fillEntry_some_rest_lt (pepper : List Nat) (s : List RawField)
    (u : List Nat) (fs : List Field) (rest : List RawField)
    (h : fillEntry pepper s = (some u, fs, rest)) : rest.length < s.length := by
  cases s with
  | nil =>
    exfalso
    simp [fillEntry, splitRecord, groupUuid] at h
  | cons f r =>
    have hrest : rest = (splitRecord (f :: r)).2 := by
      simpa [fillEntry] using (congrArg (fun x => x.2.2) h).symm
    rw [hrest]
    exact splitRecord_rest_lt f r

/-- `DiffableBase::skip_header`: the header fields up to and including the
end-of-header field (type `0xFF`), and the remaining record stream.  Header
fields are forwarded verbatim to the writer when one is present. -/
def skipHeader : List RawField → List RawField × List RawField
  | [] => ([], [])
  | f :: rest =>
    if f.1 = eorTy then ([f], rest)
    else
      let p := skipHeader rest
      (f :: p.1, p.2)

/-! ## The diff model (`src/src/diff.rs`) -/

/-- `diff.rs`: `DiffEdit` — one edit applied to a DB record.  The `set` map
(field type → bytes) and `delete` set of field types are modelled as
insertion-ordered association lists (the source's `HashMap`/`HashSet` iterate
in unspecified order; no claim depends on that order). -/
structure DiffEdit where
  set : List (Nat × List Nat)
  delete : List Nat
deriving DecidableEq

/-- `diff.rs`: `Diff` — pepper of the base it was computed against, deleted
record identifiers, and per-record edits. -/
structure Diff where
  pepper : List Nat
  delete : List (List Nat)
  edit : List (List Nat × DiffEdit)
deriving DecidableEq

/-- `diff.rs`: `DiffableBase` — pepper, flat sequence of field marks, and the
record-identifier → index-range map (ranges as `(start, stop)` pairs). -/
structure DiffableBase where
  pepper : List Nat
  fields : List FieldMark
  entries : List (List Nat × (Nat × Nat))
deriving DecidableEq

/-- `DiffableBase::CRDT_STATE`: the reserved state-record identifier
`02e4d75b-5fde-582e-b10d-409f041c3d34`. -/
def crdtState : List Nat :=
  [0x02, 0xe4, 0xd7, 0x5b, 0x5f, 0xde, 0x58, 0x2e,
   0xb1, 0x0d, 0x40, 0x9f, 0x04, 0x1c, 0x3d, 0x34]

/-- `Diff::empty`. -/
def Diff.empty (base : DiffableBase) : Diff :=
  { pepper := base.pepper, delete := [], edit := [] }

/-- Modelled from the spec: `Diff::is_empty` is called at `pwsafe.rs:207` but
its definition is not among the sources.  Per the spec, a diff is empty iff
both `delete` and `edit` are empty. -/
def Diff.is_empty (d : Diff) : Bool :=
  d.delete.isEmpty && d.edit.isEmpty

/-- Association-list lookup (models `HashMap::get` / `entry` presence). -/
def alookup {α : Type} (u : List Nat) : List (List Nat × α) → Option α
  | [] => none
  | (k, v) :: rest => if k = u then some v else alookup u rest

/-- Association-list removal (models `HashMap::remove`): the removed value and
the remaining entries. -/
def aremove {α : Type} (u : List Nat) :
    List (List Nat × α) → Option (α × List (List Nat × α))
  | [] => none
  | (k, v) :: rest =>
    if k = u then some (v, rest)
    else
      match aremove u rest with
      | none => none
      | some (w, rest') => some (w, (k, v) :: rest')

/-- Removal keyed by a field type (models `HashMap<u8, Vec<u8>>::remove`). -/
def tremove (ty : Nat) : List (Nat × List Nat) → Option (List Nat × List (Nat × List Nat))
  | [] => none
  | (k, v) :: rest =>
    if k = ty then some (v, rest)
    else
      match tremove ty rest with
      | none => none
      | some (w, rest') => some (w, (k, v) :: rest')

/-- `diff.rs`: `Update` — result of `DiffableBase::visit`. -/
structure Update where
  new_base : DiffableBase
  diff : Diff
  state_record : List Field
deriving DecidableEq

/-- Outcomes by which `DiffableBase::visit` fails to return an `Update`. -/
inductive VisitErr
  /-- The `Entry::Occupied` branch of `visit` is `todo!()` in the source — a
  panic, modelled as a distinguished outcome separate from the returned
  `eyre` error. -/
  | occupiedTodo
  /-- The returned error `Database contains record without mandatory UUID field`. -/
  | missingUuid
deriving DecidableEq

/-- The record-visiting loop of `DiffableBase::visit`: `priorKeys` is the
(never shrunk) set of old entry keys, `base` the growing `new_base`, `stRec`
the state record captured so far.  On a group without an identifier the loop
exits; non-empty leftover fields are the fatal missing-UUID error, otherwise
`diff.delete` is extended with `priorKeys` and the update returned (the visit
loop never inserts into `diff.edit`). -/
def visitGo (pepper : List Nat) (priorKeys : List (List Nat))
    (base : DiffableBase) (stRec : List Field) (s : List RawField) :
    Except VisitErr Update :=
  match h : fillEntry pepper s with
  | (none, fs, _) =>
    if fs = [] then
      .ok { new_base := base
            diff := { pepper := pepper, delete := priorKeys, edit := [] }
            state_record := stRec }
    else .error .missingUuid
  | (some u, fs, rest) =>
    if u = crdtState then
      visitGo pepper priorKeys base fs rest
    else if (alookup u base.entries).isSome then
      .error .occupiedTodo
    else
      let start := base.fields.length
      let base' : DiffableBase :=
        { base with
          fields := base.fields ++ fs.map Field.mark
          entries := base.entries ++ [(u, (start, start + fs.length))] }
      visitGo pepper priorKeys base' stRec rest
termination_by s.length
decreasing_by
  all_goals exact fillEntry_some_rest_lt pepper s u fs rest h

/-- `DiffableBase::visit`: skip the header, then visit every record group. -/
def DiffableBase.visit (base : DiffableBase) (s : List RawField) :
    Except VisitErr Update :=
  let priorKeys := (base.entries.map Prod.fst).filter (fun k => k ≠ crdtState)
  visitGo base.pepper priorKeys base [] (skipHeader s).2

/-- The per-record field rewrite of `Diff::apply`: existing fields are written
unless their type is in `edit.delete`, substituting `edit.set[type]` (and
consuming it) when present; returns the written fields and the unconsumed
`set` entries. -/
def editFieldsGo (del : List Nat) (set : List (Nat × List Nat)) :
    List Field → List RawField × List (Nat × List Nat)
  | [] => ([], set)
  | f :: rest =>
    if f.raw_ty ∈ del then editFieldsGo del set rest
    else
      match tremove f.raw_ty set with
      | none =>
        let p := editFieldsGo del set rest
        ((f.raw_ty, f.raw_data) :: p.1, p.2)
      | some (d, set1) =>
        let p := editFieldsGo del set1 rest
        ((f.raw_ty, d) :: p.1, p.2)

/-- The trailing loop of `Diff::apply`: edits whose identifier never appeared
in the source stream are emitted as new records — identifier field first, then
the `set` entries (no end-of-record field is written). -/
def emitNew (edits : List (List Nat × DiffEdit)) : List RawField :=
  edits.flatMap (fun e => (0x01, e.1) :: e.2.set)

/-- The record loop of `Diff::apply`.  A group without an identifier ends the
loop (its fields, and every following group, are dropped); deleted identifiers
are skipped; edited records are rewritten via `editFieldsGo` with leftover
`set` entries appended; all remaining edits are emitted at the end. -/
def applyGo (pepper : List Nat) (deleteSet : List (List Nat))
    (edits : List (List Nat × DiffEdit)) (s : List RawField) : List RawField :=
  match h : fillEntry pepper s with
  | (none, _, _) => emitNew edits
  | (some u, fs, rest) =>
    if u ∈ deleteSet then
      applyGo pepper deleteSet edits rest
    else
      match aremove u edits with
      | none =>
        fs.map (fun f => (f.raw_ty, f.raw_data)) ++ applyGo pepper deleteSet edits rest
      | some (ed, edits') =>
        let p := editFieldsGo ed.delete ed.set fs
        p.1 ++ p.2 ++ applyGo pepper deleteSet edits' rest
termination_by s.length
decreasing_by
  all_goals exact fillEntry_some_rest_lt pepper s u fs rest h

/-- `Diff::apply`: copy the header verbatim, then run the record loop. -/
def Diff.apply (d : Diff) (s : List RawField) : List RawField :=
  (skipHeader s).1 ++ applyGo d.pepper d.delete d.edit (skipHeader s).2

/-! ## Record extraction for stream comparison

The spec compares streams "by records": groups are delimited by end-of-record
fields; a group names the record given by its (last) identifier field. -/

/-- All record groups of a record stream (after the header). -/
def streamGroups : List RawField → List (List RawField)
  | [] => []
  | f :: rest =>
    let p := splitRecord (f :: rest)
    p.1 :: streamGroups p.2
termination_by s => s.length
decreasing_by exact splitRecord_rest_lt f rest

/-- The identifiers of a stream's records, in stream order. -/
def recordIds (s : List RawField) : List (List Nat) :=
  (streamGroups (skipHeader s).2).filterMap groupUuid

/-- Every record group of a (header-stripped) stream carries an identifier. -/
def allGroupsIdentified (s : List RawField) : Bool :=
  (streamGroups s).all (fun g => (groupUuid g).isSome)

/-- The prefix of a record stream before its first identifier-lacking group:
the groups `Diff::apply` actually processes. -/
def cutAtLack : List RawField → List RawField
  | [] => []
  | f :: rest =>
    let p := splitRecord (f :: rest)
    match groupUuid p.1 with
    | none => []
    | some _ => p.1 ++ cutAtLack p.2
termination_by s => s.length
decreasing_by exact splitRecord_rest_lt f rest

/-- The stream reaches an identifier-lacking group, and every group before it
has an identifier that is fresh: not among `keys` (the base's entry keys,
growing as `visit` inserts) and not the reserved state identifier. -/
def cleanUntilLack (keys : List (List Nat)) : List RawField → Bool
  | [] => false
  | f :: rest =>
    let p := splitRecord (f :: rest)
    match groupUuid p.1 with
    | none => true
    | some u =>
      if u ∈ keys ∨ u = crdtState then false
      else cleanUntilLack (keys ++ [u]) p.2
termination_by s => s.length
decreasing_by exact splitRecord_rest_lt f rest

/-! ## Concrete streams used by the evaluations -/

/-- `DiffableBase::default()`: zeroed pepper, no marks, no entries. -/
def defaultBase : DiffableBase :=
  { pepper := List.replicate 16 0, fields := [], entries := [] }

/-- A concrete record identifier (16 bytes of `0x11`). -/
def uuid1 : List Nat := List.replicate 16 0x11

/-- A second record identifier (16 bytes of `0x22`). -/
def uuid2 : List Nat := List.replicate 16 0x22

/-- A stream with one record `uuid1` carrying a password field, after a
minimal header. -/
def streamOne : List RawField :=
  [(eorTy, []), (0x01, uuid1), (0x06, [98]), (eorTy, [])]

/-- The serialization of the empty database (header only): what the remote
base holds before `streamOne`'s record is added. -/
def streamNil : List RawField := [(eorTy, [])]

/-- A stream whose first record group lacks the identifier field, followed by
a well-formed record `uuid1`. -/
def streamBadRecord : List RawField :=
  [(eorTy, []), (0x06, [120]), (eorTy, []), (0x01, uuid1), (0x06, [98]), (eorTy, [])]

/-- A stream with a good record `uuid1`, then an identifier-lacking group,
then a further record `uuid2` (which `apply` silently drops). -/
def streamLack : List RawField :=
  [(eorTy, []), (0x01, uuid1), (eorTy, []), (0x06, [120]), (eorTy, []),
   (0x01, uuid2), (eorTy, [])]

/-- A stream with the record `uuid1` twice and then an identifier-lacking
group: `visit` hits the unimplemented `Entry::Occupied` branch before ever
reaching the lacking group. -/
def streamDupLack : List RawField :=
  [(eorTy, []), (0x01, uuid1), (eorTy, []), (0x01, uuid1), (eorTy, []),
   (0x06, [120]), (eorTy, [])]

/-! ## Lock-file path (`src/src/pwsafe.rs`, `PwsafeDb::lock_file_name`)

Rust `Path::extension` returns the part of the file name after the last dot
(without the dot, and only when that dot is not the leading character);
`PathBuf::set_extension(e)` truncates to the file stem and appends `"." ++ e`
verbatim.  Paths are modelled by their file name as a character list. -/

/-- The index of the last `.` in a file name that is not at position 0
(Rust's stem/extension split point). -/
def lastDotIdx (name : List Char) : Option Nat :=
  (List.range name.length).foldl
    (fun acc i => if 0 < i ∧ name.getD i ' ' = '.' then some i else acc) none

/-- Rust `Path::extension` on a file name. -/
def rustExtension (name : List Char) : Option (List Char) :=
  match lastDotIdx name with
  | none => none
  | some i => some (name.drop (i + 1))

/-- Rust `Path::file_stem` on a file name. -/
def rustFileStem (name : List Char) : List Char :=
  match lastDotIdx name with
  | none => name
  | some i => name.take i

/-- Rust `PathBuf::set_extension` on a file name, for a non-empty new
extension: truncate to the stem and append a dot and the extension text
verbatim (a leading dot in the argument is *not* stripped). -/
def rustSetExtension (name ext : List Char) : List Char :=
  if name = [] then name else rustFileStem name ++ ('.' :: ext)

/-- `PwsafeDb::lock_file_name`: compare the extension against the literal
`".cfg"` and set the extension to `"cfg.plk"` or `".plk"` accordingly. -/
def lock_file_name (name : List Char) : List Char :=
  let ext :=
    if rustExtension name = some ['.', 'c', 'f', 'g']
    then ['c', 'f', 'g', '.', 'p', 'l', 'k']
    else ['.', 'p', 'l', 'k']
  rustSetExtension name ext

/-- The file name `vault.psafe3`. -/
def vaultDb : List Char := ['v', 'a', 'u', 'l', 't', '.', 'p', 's', 'a', 'f', 'e', '3']

/-- The file name `vault.cfg`. -/
def vaultCfg : List Char := ['v', 'a', 'u', 'l', 't', '.', 'c', 'f', 'g']

/-- The file name `vault..plk`. -/
def vaultDoubleDot : List Char := ['v', 'a', 'u', 'l', 't', '.', '.', 'p', 'l', 'k']

/-- The file name `vault.plk` the spec expects. -/
def vaultPlk : List Char := ['v', 'a', 'u', 'l', 't', '.', 'p', 'l', 'k']

/-- The file name `vault.cfg.plk` the spec expects for `.cfg` databases. -/
def vaultCfgPlk : List Char :=
  ['v', 'a', 'u', 'l', 't', '.', 'c', 'f', 'g', '.', 'p', 'l', 'k']

/-! ## Communicator (`src/src/communicator.rs`) -/

/-- `pwsafe.rs`: `Timestamp`.  The source's `unique` is an opaque event-id
string compared only for equality; it is modelled as a number, with `0`
standing for the empty string. -/
structure Timestamp where
  ts_ms : Nat
  unique : Nat
deriving DecidableEq

/-- `communicator.rs` / `sync.rs`: the messages on the producer → work-loop
channel (`Message::{Diff, Sync, Remote, Rebase}`), with payloads of type `P`
(the source's `serde_json::Value`). -/
inductive Msg (P : Type)
  | diff (payload : P)
  | sync (id : Nat) (point : Nat)
  | remote (payload : P) (ts : Timestamp)
  | rebase
deriving DecidableEq

/-- `communicator.rs`: the per-producer state of a `Communicator`: its unique
`id` and monotonic `sync_point_next` counter. -/
structure CommunicatorM where
  id : Nat
  sync_point_next : Nat
deriving DecidableEq

/-- `Communicator::send_diff`: the diff message followed by the `Sync` barrier
`_sync` sends, and the updated producer state. -/
def send_diff {P : Type} (c : CommunicatorM) (p : P) : CommunicatorM × List (Msg P) :=
  ({ c with sync_point_next := c.sync_point_next + 1 },
   [Msg.diff p, Msg.sync c.id c.sync_point_next])

/-- `Communicator::send_remote`. -/
def send_remote {P : Type} (c : CommunicatorM) (p : P) (ts : Timestamp) :
    CommunicatorM × List (Msg P) :=
  ({ c with sync_point_next := c.sync_point_next + 1 },
   [Msg.remote p ts, Msg.sync c.id c.sync_point_next])

/-- `Communicator::rebase`. -/
def rebaseSend (P : Type) (c : CommunicatorM) : CommunicatorM × List (Msg P) :=
  ({ c with sync_point_next := c.sync_point_next + 1 },
   [Msg.rebase, Msg.sync c.id c.sync_point_next])

/-- Reduction of a `u64` value. -/
def u64 (n : Nat) : Nat := n % 2 ^ 64

/-- `u64::wrapping_sub` on values below `2^64`. -/
def wrappingSub (a b : Nat) : Nat := (a + (2 ^ 64 - u64 b)) % 2 ^ 64

/-- `i64::MAX as u64`. -/
def i64MaxAsU64 : Nat := 2 ^ 63 - 1

/-- The wait predicate of `Communicator::_sync` (communicator.rs:100-107): the
future completes once the station has published an acknowledgement `acked` for
this producer with `sync_id.wrapping_sub(acked) < i64::MAX as u64` (no entry
in the ack map means keep waiting). -/
def syncReadyPred (sync_id : Nat) (acked : Option Nat) : Bool :=
  match acked with
  | none => false
  | some s => wrappingSub sync_id s < i64MaxAsU64

/-! ## The work loop (`src/bin/pwsafe-matrix/src/cmd/sync.rs`, `work_on`) -/

/-- `sync.rs`: `UqTs` — the remote timestamp as compared by `AwaitTs`'s
comparison (timestamp value plus event name). -/
structure UqTs where
  ts_ms : Nat
  name : Nat
deriving DecidableEq

/-- `sync.rs`: `NO_TS`, the `UqTs` an absent remote timestamp maps to
(`ts_ms = 0`, empty name). -/
def noTs : UqTs := { ts_ms := 0, name := 0 }

/-- `sync.rs`: `uq_ts`, with `map_or(NO_TS, ..)` for the absent case. -/
def uqOf : Option Timestamp → UqTs
  | none => noTs
  | some t => { ts_ms := t.ts_ms, name := t.unique }

/-- The `UqTs` comparison (sync.rs:172-184): order by `ts_ms`; at equal
`ts_ms`, equal only for equal names, otherwise incomparable. -/
def uqCmpO (a b : UqTs) : Option Ordering :=
  if a.ts_ms < b.ts_ms then some .lt
  else if b.ts_ms < a.ts_ms then some .gt
  else if a.name = b.name then some .eq
  else none

/-- Rust `le` on `UqTs` (the `<=` in `AwaitTs`'s comparison). -/
def uqLe (a b : UqTs) : Bool :=
  match uqCmpO a b with
  | some .lt => true
  | some .eq => true
  | _ => false

/-- Rust `ge` on `UqTs` (the `>=` in `AwaitTs`'s comparison). -/
def uqGe (a b : UqTs) : Bool :=
  match uqCmpO a b with
  | some .gt => true
  | some .eq => true
  | _ => false

/-- `sync.rs`: `AwaitTs` — the work loop's progress marker.  The source's
field `local` is a Lean keyword and is rendered `loc`. -/
structure AwaitTs where
  loc : Nat
  remote : Option Timestamp
deriving DecidableEq

/-- The `AwaitTs` comparison (sync.rs:147-170): equal values compare equal;
otherwise `Less` when `local` and the mapped remote timestamps are both `≤`,
`Greater` when both are `≥`, else incomparable. -/
def awaitCmpO (a b : AwaitTs) : Option Ordering :=
  if a = b then some .eq
  else if a.loc ≤ b.loc ∧ uqLe (uqOf a.remote) (uqOf b.remote) = true then some .lt
  else if b.loc ≤ a.loc ∧ uqGe (uqOf a.remote) (uqOf b.remote) = true then some .gt
  else none

/-- Rust `lt` on `AwaitTs` (`*need < applied`): comparison yields `Less`. -/
def awaitLt (a b : AwaitTs) : Bool :=
  match awaitCmpO a b with
  | some .lt => true
  | _ => false

/-- Errors that terminate `work_on`. -/
inductive WErr
  /-- A `Remote` payload failed to deserialize (`db.diff(diff)?`). -/
  | remoteParse
  /-- The `debug_assert!` on a non-monotone inbound remote timestamp
  (a panic in debug builds; modelled as a terminating outcome). -/
  | nonCausal
deriving DecidableEq

/-- The work loop's view of `PwsafeDb`: the FIFO of local diffs, the remote
base (as the list of absorbed remote diffs), and the `(remote, fifo)` pair the
last successful rewrite rendered to the on-disk file. -/
structure DbM (D : Type) where
  local_diff : List D
  remoteBase : List D
  disk : List D × List D
deriving DecidableEq

/-- The state `work_on` holds across iterations (sync.rs:186-207). -/
structure WState (D : Type) where
  applied : AwaitTs
  pending : AwaitTs
  acks : List (Nat × List (AwaitTs × Nat))
  lock_exists : Bool
  locals : List D
  remotes : List D
  remote_ts : List Timestamp
  db : DbM D
deriving DecidableEq

/-- The initial state of `work_on`. -/
def wInit {D : Type} : WState D :=
  { applied := { loc := 0, remote := none }
    pending := { loc := 0, remote := none }
    acks := []
    lock_exists := false
    locals := []
    remotes := []
    remote_ts := []
    db := { local_diff := [], remoteBase := [], disk := ([], []) } }

/-- `acks.entry(id).or_default().push_back(v)`. -/
def pushAck (acks : List (Nat × List (AwaitTs × Nat))) (id : Nat) (v : AwaitTs × Nat) :
    List (Nat × List (AwaitTs × Nat)) :=
  match acks with
  | [] => [(id, [v])]
  | (k, q) :: rest =>
    if k = id then (k, q ++ [v]) :: rest else (k, q) :: pushAck rest id v

/-- Processing of one received message (sync.rs:212-248).  `parse` models
`db.diff` (deserialization under the current base).  A `Diff` that fails to
parse is discarded; a `Remote` that fails to parse terminates the loop; `Sync`
enqueues `(pending.clone(), point)`; `Rebase` clears `lock_exists`.  Note the
loop never bumps `pending.loc`. -/
def processMsg {P D : Type} (parse : P → Option D) (st : WState D) :
    Msg P → Except WErr (WState D)
  | .diff p =>
    match parse p with
    | none => .ok st
    | some d => .ok { st with locals := st.locals ++ [d] }
  | .remote p ts =>
    match parse p with
    | none => .error .remoteParse
    | some d =>
      let causal :=
        match st.pending.remote with
        | none => true
        | some v => decide (v.ts_ms ≤ ts.ts_ms)
      if causal then
        .ok { st with
              pending := { st.pending with remote := some ts }
              remotes := st.remotes ++ [d]
              remote_ts := st.remote_ts ++ [ts] }
      else .error .nonCausal
  | .sync id point => .ok { st with acks := pushAck st.acks id (st.pending, point) }
  | .rebase => .ok { st with lock_exists := false }

/-- Process one received batch in order; an error drops the rest (the `?`
returns from `work_on`). -/
def procBatch {P D : Type} (parse : P → Option D) (st : WState D) :
    List (Msg P) → Except WErr (WState D)
  | [] => .ok st
  | m :: rest =>
    match processMsg parse st m with
    | .error e => .error e
    | .ok st' => procBatch parse st' rest

/-- Environment outcome of one lock scope (sync.rs:257-292): acquisition fails
with `AlreadyExists` (an external editor holds the lock), some earlier I/O
step fails (buffers preserved, `lock_exists` untouched), or the whole scope —
refresh, `push_diff_from_remote` (which may synthesize a diff `ext` from
external file edits), draining `locals`, rebase and rewrite — succeeds. -/
inductive Env (D : Type)
  | lockBusy
  | ioFail
  | ok (ext : Option D)

/-- The lock scope of one iteration.  On success: the external diff and all
staged locals enter the FIFO (`applied.loc` bumped per drained local), the
staged remotes are absorbed into the remote base (`applied.remote` set to the
last staged timestamp, if any), the buffers are cleared and the rewrite
renders `(remoteBase, fifo)` to disk. -/
def lockScope {D : Type} (env : Env D) (st : WState D) : WState D :=
  match env with
  | .lockBusy => { st with lock_exists := true }
  | .ioFail => st
  | .ok ext =>
    let fifo := (st.db.local_diff ++ ext.toList) ++ st.locals
    let remoteB := st.db.remoteBase ++ st.remotes
    { st with
      db := { local_diff := fifo, remoteBase := remoteB, disk := (remoteB, fifo) }
      applied :=
        { loc := st.applied.loc + st.locals.length
          remote :=
            match st.remote_ts.getLast? with
            | some t => some t
            | none => st.applied.remote }
      locals := []
      remotes := []
      remote_ts := [] }

/-- The ack drain for one producer queue (sync.rs:294-305): pop from the front
while the head's recorded `AwaitTs` is strictly below `applied`; returns the
remaining queue and the popped barriers in order. -/
def drainQueue (applied : AwaitTs) : List (AwaitTs × Nat) →
    List (AwaitTs × Nat) × List (AwaitTs × Nat)
  | [] => ([], [])
  | (need, point) :: rest =>
    if awaitLt need applied then
      let p := drainQueue applied rest
      (p.1, (need, point) :: p.2)
    else ((need, point) :: rest, [])

/-- The ack phase over all producer queues: the updated queues and the emitted
`(id, sync_point)` acknowledgements. -/
def ackPhase {D : Type} (st : WState D) : WState D × List (Nat × Nat) :=
  let dr := st.acks.map (fun e => (e.1, drainQueue st.applied e.2))
  ({ st with acks := dr.map (fun e => (e.1, e.2.1)) },
   dr.flatMap (fun e => e.2.2.map (fun v => (e.1, v.2))))

/-- One iteration of `work_on`: receive and process a batch, run the lock
scope unless `lock_exists`, then drain the ack queues.  Returns the new state
and the acknowledgements published via `station.ack`. -/
def workStep {P D : Type} (parse : P → Option D) (st : WState D)
    (batch : List (Msg P)) (env : Env D) :
    Except WErr (WState D × List (Nat × Nat)) :=
  match procBatch parse st batch with
  | .error e => .error e
  | .ok st1 =>
    let st2 := if st1.lock_exists then st1 else lockScope env st1
    .ok (ackPhase st2)

/-- The parse function of the concrete work-loop traces: every payload is a
valid diff. -/
def parseAll : Nat → Option Nat := fun d => some d

/-- The parse function that rejects every payload. -/
def parseNone : Nat → Option Nat := fun _ => none

/-! ## Rebase (`src/src/pwsafe.rs`, `PwsafeLock::rebase`) -/

/-- The state `PwsafeLock::rebase` can reach: the in-memory remote base of
type `R`, the persisted `state.remote_until`, and the (opaque) bytes of the
on-disk file, which `rebase` never writes. -/
structure RebaseSt (R : Type) where
  remote : R
  remote_until : Option Timestamp
  disk : List Nat
deriving DecidableEq

/-- The loop of `PwsafeLock::rebase` over zipped `(diff, ts)` pairs.  `applyD`
bundles the fallible per-diff step (writer creation, `diff.apply`, `finish`,
re-reading — failing with I/O or codec errors per the spec's codec contract);
each fully-applied diff replaces the remote base and sets `remote_until`, and
a failure returns immediately, keeping the state built so far. -/
def rebaseGo {D R E : Type} (applyD : R → D → Except E R) (st : RebaseSt R) :
    List (D × Timestamp) → RebaseSt R × Option E
  | [] => (st, none)
  | (d, t) :: rest =>
    match applyD st.remote d with
    | .error e => (st, some e)
    | .ok r' => rebaseGo applyD { st with remote := r', remote_until := some t } rest

/-- `PwsafeLock::rebase` on slices of equal length (the source asserts
`diffs.len() == time.len()` and zips them). -/
def rebase {D R E : Type} (applyD : R → D → Except E R) (st : RebaseSt R)
    (diffs : List D) (time : List Timestamp) : RebaseSt R × Option E :=
  rebaseGo applyD st (diffs.zip time)

/-- Fold of successful diff applications, for stating which prefix a rebase
absorbed. -/
def foldApply {D R E : Type} (applyD : R → D → Except E R) (r : R) :
    List D → Option R
  | [] => some r
  | d :: rest =>
    match applyD r d with
    | .error _ => none
    | .ok r' => foldApply applyD r' rest

/-- A concrete fallible apply step: fails on the diff `2`. -/
def applyFail2 : Nat → Nat → Except Unit Nat :=
  fun r d => if d = 2 then .error () else .ok (r + d)

/-- A concrete initial rebase state. -/
def rb0 : RebaseSt Nat := { remote := 0, remote_until := none, disk := [7] }

/-- A concrete timestamp. -/
def ts5 : Timestamp := { ts_ms := 5, unique := 1 }

/-- A decidable equality for `Except`, so concrete runs evaluate by `decide`. -/
instance {ε α : Type} [DecidableEq ε] [DecidableEq α] : DecidableEq (Except ε α)
  | .ok a, .ok b =>
    if h : a = b then .isTrue (congrArg Except.ok h)
    else .isFalse (fun c => h (Except.ok.inj c))
  | .ok _, .error _ => .isFalse (fun c => Except.noConfusion c)
  | .error _, .ok _ => .isFalse (fun c => Except.noConfusion c)
  | .error e, .error f =>
    if h : e = f then .isTrue (congrArg Except.error h)
    else .isFalse (fun c => h (Except.error.inj c))

/-! # Theorems -/

/-! ## Stream decomposition lemmas -/

theorem splitRecord_append (s : List RawField) :
    (splitRecord s).1 ++ (splitRecord s).2 = s := by
  induction s with
  | nil => rfl
  | cons f rest ih =>
    by_cases h : f.1 = eorTy <;> simp [splitRecord, h, ih]

theorem skipHeader_append (s : List RawField) :
    (skipHeader s).1 ++ (skipHeader s).2 = s := by
  induction s with
  | nil => rfl
  | cons f rest ih =>
    by_cases h : f.1 = eorTy <;> simp [skipHeader, h, ih]

/-- Re-splitting a record group: appending anything after a group split off a
stream re-splits at the same point (when the original remainder was non-empty
the group is end-of-record-terminated; otherwise this holds for an empty
continuation). -/
theorem splitRecord_group_append (s X : List RawField)
    (h : (splitRecord s).2 ≠ [] ∨ X = []) :
    splitRecord ((splitRecord s).1 ++ X) = ((splitRecord s).1, X) := by
  induction s with
  | nil =>
    have hx : X = [] := by
      rcases h with h | h
      · exact absurd rfl h
      · exact h
    simp [splitRecord, hx]
  | cons f rest ih =>
    by_cases hf : f.1 = eorTy
    · simp [splitRecord, hf]
    · simp only [splitRecord, hf, if_false] at h ⊢
      have := ih h
      simp [splitRecord, hf, this]

/-- `alookup` misses exactly the keys outside the entry list. -/
theorem alookup_eq_none_of_not_mem {α : Type} (u : List Nat)
    (l : List (List Nat × α)) (h : u ∉ l.map Prod.fst) : alookup u l = none := by
  induction l with
  | nil => rfl
  | cons e rest ih =>
    simp only [List.map_cons, List.mem_cons] at h
    push_neg at h
    have hne : e.1 ≠ u := fun c => h.1 c.symm
    cases e with
    | mk k v => simpa [alookup, hne] using ih h.2

/-! ## C1 and C2: `visit` against the spec's diff semantics

`visit`'s `Entry::Occupied` branch is `todo!()` and its `Entry::Vacant`
branch never inserts into `diff.edit`; the concrete evaluations below pin
both down. -/

/-- C1: for every field stream `S` and base `B`, if `visit(B, S)` returns
`Update {new_base, diff, _}` then applying `diff` to the pre-`S`
serialization of `B` yields a stream whose records equal those of `S`.
REFUTED on the code: with `B` the default (empty) base and `S` a stream with
one new record, `visit` succeeds but returns an *empty* diff (the
`Entry::Vacant` branch never populates `diff.edit`), so applying it to the
empty pre-`S` stream reproduces the empty stream, not `S`: the record
identifier sets `[]` and `[uuid1]` disagree. -/
theorem visit_roundtrip_fails_on_new_record :
    (DiffableBase.visit defaultBase streamOne).map (fun w => w.diff)
      = .ok (Diff.empty defaultBase)
    ∧ Diff.apply (Diff.empty defaultBase) streamNil = streamNil
    ∧ recordIds streamNil = []
    ∧ recordIds streamOne = [uuid1] := by
  refine ⟨?_, ?_, ?_, ?_⟩ <;>
    simp [DiffableBase.visit, visitGo, Diff.apply, applyGo, emitNew, editFieldsGo,
      recordIds, streamGroups, skipHeader, fillEntry, splitRecord, groupUuid, mkField,
      RecField.new, eorTy, defaultBase, streamOne, streamNil, uuid1, crdtState,
      alookup, aremove, Diff.empty, Except.map]

/-- C2: a stream containing a record whose identifier is already present in
the old base's entry map.  REFUTED on the code: visiting `streamOne` once
yields a base whose entries contain `uuid1`; visiting the same stream again
under that base reaches the `Entry::Occupied` branch, which is `todo!()` — a
panic (modelled as the `occupiedTodo` outcome), not a successful return with
`set`/`delete` entries computed from the mark slices. -/
theorem visit_existing_record_hits_todo :
    (DiffableBase.visit defaultBase streamOne).bind
      (fun w => DiffableBase.visit w.new_base streamOne) = .error .occupiedTodo := by
  simp [DiffableBase.visit, visitGo, fillEntry, splitRecord, groupUuid, mkField,
    RecField.new, eorTy, defaultBase, streamOne, uuid1, crdtState, alookup,
    skipHeader, Except.bind]

/-! ## C8: the empty diff -/

/-- The record loop of `apply` under an empty diff reproduces any stream all
of whose groups are identified. -/
theorem applyGo_no_edits_id (pepper : List Nat) (s : List RawField)
    (h : allGroupsIdentified s = true) :
    applyGo pepper [] [] s = s := by
  induction s using streamGroups.induct with
  | case1 => simp [applyGo, fillEntry, splitRecord, groupUuid, emitNew]
  | case2 f rest p ih =>
    obtain ⟨g, r, hsplit⟩ : ∃ g r, splitRecord (f :: rest) = (g, r) := ⟨_, _, rfl⟩
    have hfe : fillEntry pepper (f :: rest) = (groupUuid g, g.map (mkField pepper), r) := by
      simp [fillEntry, hsplit]
    have hsg : streamGroups (f :: rest) = g :: streamGroups r := by
      rw [streamGroups]
      simp [hsplit]
    have hall : (groupUuid g).isSome = true ∧ allGroupsIdentified r = true := by
      simpa [allGroupsIdentified, hsg] using h
    obtain ⟨u, hu⟩ := Option.isSome_iff_exists.mp hall.1
    rw [applyGo.eq_def, hfe, hu]
    simp only [List.not_mem_nil, if_false, aremove, List.map_map]
    have hp : p = (g, r) := hsplit
    rw [hp] at ih
    have hmap : List.map ((fun fl => (fl.raw_ty, fl.raw_data)) ∘ mkField pepper) g = g := by
      have hcomp : ((fun fl : Field => (fl.raw_ty, fl.raw_data)) ∘ mkField pepper) = id := by
        funext x
        rfl
      rw [hcomp, List.map_id]
    have happ := splitRecord_append (f :: rest)
    rw [hsplit] at happ
    rw [hmap, ih hall.2]
    exact happ

/-- C8 (amended): a diff is empty iff both `delete` and `edit` are empty
(`Diff::is_empty`, modelled from the spec), and applying a diff with empty
`delete` and `edit` to a stream *in which every record group carries the
mandatory identifier field* reproduces the stream exactly — in particular its
record set.  (The restriction is forced by
`empty_diff_drops_unidentified_records`: on a stream with an
identifier-lacking group, `apply` truncates instead.) -/
theorem empty_diff_apply_identity (d : Diff) (s : List RawField)
    (hdel : d.delete = []) (hedit : d.edit = [])
    (h : allGroupsIdentified (skipHeader s).2 = true) :
    Diff.is_empty d = true ∧ Diff.apply d s = s := by
  constructor
  · simp [Diff.is_empty, hdel, hedit]
  · rw [Diff.apply, hdel, hedit, applyGo_no_edits_id d.pepper _ h]
    exact skipHeader_append s

/-- Witness for `empty_diff_apply_identity` at a concrete empty diff and
stream. -/
theorem empty_diff_apply_identity_witness :
    Diff.is_empty (Diff.empty defaultBase) = true
    ∧ Diff.apply (Diff.empty defaultBase) streamOne = streamOne :=
  empty_diff_apply_identity (Diff.empty defaultBase) streamOne rfl rfl
    (by simp [allGroupsIdentified, streamGroups, splitRecord, groupUuid, skipHeader,
          RecField.new, eorTy, streamOne, uuid1])

/-- C8, counterexample to the claim as stated (over *any* stream): applying
the empty diff to `streamBadRecord` — whose first record group lacks the
identifier field — drops the well-formed record `uuid1` entirely, so the
output's record set is not the input's. -/
theorem empty_diff_drops_unidentified_records :
    (Diff.empty defaultBase).delete = []
    ∧ (Diff.empty defaultBase).edit = []
    ∧ Diff.apply (Diff.empty defaultBase) streamBadRecord = [(eorTy, [])]
    ∧ recordIds streamBadRecord = [uuid1]
    ∧ recordIds (Diff.apply (Diff.empty defaultBase) streamBadRecord) = [] := by
  refine ⟨rfl, rfl, ?_, ?_, ?_⟩ <;>
    simp [Diff.apply, applyGo, emitNew, recordIds, streamGroups, skipHeader,
      fillEntry, splitRecord, groupUuid, mkField, RecField.new, eorTy,
      defaultBase, streamBadRecord, uuid1, Diff.empty, aremove]

/-! ## C10: streams with an identifier-lacking record -/

/-- The record loop of `apply` never looks beyond the first identifier-lacking
group: its output on a stream reaching such a group cleanly equals its output
on the stream truncated just before that group. -/
theorem applyGo_cutAtLack (pepper : List Nat) (keys : List (List Nat)) (s : List RawField) :
    cleanUntilLack keys s = true →
    ∀ (del : List (List Nat)) (edits : List (List Nat × DiffEdit)),
      applyGo pepper del edits s = applyGo pepper del edits (cutAtLack s) := by
  induction keys, s using cleanUntilLack.induct with
  | case1 keys => simp [cleanUntilLack]
  | case2 keys f rest p hnone =>
    intro _ del edits
    obtain ⟨g, r, hsplit⟩ : ∃ g r, splitRecord (f :: rest) = (g, r) := ⟨_, _, rfl⟩
    have hp : p = (g, r) := hsplit
    rw [hp] at hnone
    have hcut : cutAtLack (f :: rest) = [] := by
      rw [cutAtLack]
      simp only [hsplit]
      simp [hnone]
    have hfe : fillEntry pepper (f :: rest) = (none, g.map (mkField pepper), r) := by
      simp only [fillEntry, hsplit]
      simpa using hnone
    rw [hcut, applyGo.eq_def, hfe]
    simp [applyGo, fillEntry, splitRecord, groupUuid]
  | case3 keys f rest p u hu hbad =>
    intro h del edits
    exfalso
    obtain ⟨g, r, hsplit⟩ : ∃ g r, splitRecord (f :: rest) = (g, r) := ⟨_, _, rfl⟩
    have hp : p = (g, r) := hsplit
    rw [hp] at hu
    rw [cleanUntilLack] at h
    simp only [hsplit] at h
    simp only at hu
    rw [hu] at h
    simp only [hbad, if_true] at h
    exact Bool.false_ne_true h
  | case4 keys f rest p u hu hok ih =>
    intro h del edits
    obtain ⟨g, r, hsplit⟩ : ∃ g r, splitRecord (f :: rest) = (g, r) := ⟨_, _, rfl⟩
    have hp : p = (g, r) := hsplit
    rw [hp] at hu ih
    simp only at hu ih
    have hrec : cleanUntilLack (keys ++ [u]) r = true := by
      rw [cleanUntilLack] at h
      simp only [hsplit] at h
      rw [hu] at h
      simpa [hok] using h
    have hfe : fillEntry pepper (f :: rest) = (some u, g.map (mkField pepper), r) := by
      simp only [fillEntry, hsplit]
      simpa using hu
    have hcut : cutAtLack (f :: rest) = g ++ cutAtLack r := by
      rw [cutAtLack]
      simp only [hsplit]
      rw [hu]
    have hcond2 : (splitRecord (f :: rest)).2 ≠ [] ∨ cutAtLack r = [] := by
      by_cases hr : r = []
      · right
        rw [hr, cutAtLack]
      · left
        rw [hsplit]
        exact hr
    have hre := splitRecord_group_append (f :: rest) (cutAtLack r) hcond2
    rw [hsplit] at hre
    simp only at hre
    have hfe2 : fillEntry pepper (g ++ cutAtLack r)
        = (some u, g.map (mkField pepper), cutAtLack r) := by
      simp only [fillEntry, hre]
      simpa using hu
    rw [hcut]
    conv_lhs => rw [applyGo.eq_def, hfe]
    conv_rhs => rw [applyGo.eq_def, hfe2]
    by_cases hdel : u ∈ del
    · simp only [hdel, if_true]
      exact ih hrec del edits
    · simp only [hdel, if_false]
      cases haem : aremove u edits with
      | none =>
        simp only [haem]
        rw [ih hrec del edits]
      | some pr =>
        simp only [haem]
        rw [ih hrec del pr.2]

/-- The visit loop reaching an identifier-lacking group along fresh
identifiers returns the missing-UUID error. -/
theorem visitGo_missingUuid (pepper : List Nat) (keys : List (List Nat)) (s : List RawField) :
    cleanUntilLack keys s = true →
    ∀ (priorKeys : List (List Nat)) (base : DiffableBase) (stRec : List Field),
      base.entries.map Prod.fst = keys →
      visitGo pepper priorKeys base stRec s = .error .missingUuid := by
  induction keys, s using cleanUntilLack.induct with
  | case1 keys => simp [cleanUntilLack]
  | case2 keys f rest p hnone =>
    intro _ priorKeys base stRec _
    obtain ⟨g, r, hsplit⟩ : ∃ g r, splitRecord (f :: rest) = (g, r) := ⟨_, _, rfl⟩
    have hp : p = (g, r) := hsplit
    rw [hp] at hnone
    simp only at hnone
    have hfe : fillEntry pepper (f :: rest) = (none, g.map (mkField pepper), r) := by
      simp only [fillEntry, hsplit]
      simpa using hnone
    have hg : g ≠ [] := by
      intro hg0
      have happ := splitRecord_append (f :: rest)
      have hlt := splitRecord_rest_lt f rest
      rw [hsplit] at happ hlt
      rw [hg0] at happ
      simp only [List.nil_append] at happ
      simp only at hlt
      rw [happ] at hlt
      exact absurd hlt (lt_irrefl _)
    rw [visitGo.eq_def, hfe]
    simp [hg]
  | case3 keys f rest p u hu hbad =>
    intro h priorKeys base stRec _
    exfalso
    obtain ⟨g, r, hsplit⟩ : ∃ g r, splitRecord (f :: rest) = (g, r) := ⟨_, _, rfl⟩
    have hp : p = (g, r) := hsplit
    rw [hp] at hu
    rw [cleanUntilLack] at h
    simp only [hsplit] at h
    simp only at hu
    rw [hu] at h
    simp only [hbad, if_true] at h
    exact Bool.false_ne_true h
  | case4 keys f rest p u hu hok ih =>
    intro h priorKeys base stRec hkeys
    obtain ⟨g, r, hsplit⟩ : ∃ g r, splitRecord (f :: rest) = (g, r) := ⟨_, _, rfl⟩
    have hp : p = (g, r) := hsplit
    rw [hp] at hu ih
    simp only at hu ih
    have hrec : cleanUntilLack (keys ++ [u]) r = true := by
      rw [cleanUntilLack] at h
      simp only [hsplit] at h
      rw [hu] at h
      simpa [hok] using h
    have hfe : fillEntry pepper (f :: rest) = (some u, g.map (mkField pepper), r) := by
      simp only [fillEntry, hsplit]
      simpa using hu
    have hucrdt : u ≠ crdtState := fun c => hok (Or.inr c)
    have humem : u ∉ keys := fun c => hok (Or.inl c)
    have hlook : alookup u base.entries = none := by
      apply alookup_eq_none_of_not_mem
      rw [hkeys]
      exact humem
    rw [visitGo.eq_def, hfe]
    simp only [hucrdt, if_false, hlook, Option.isSome_none, Bool.false_eq_true]
    exact ih hrec priorKeys _ stRec (by simp [hkeys])

/-- C10 (amended): for a stream whose record groups before the first
identifier-lacking group carry pairwise-fresh identifiers (not in the base,
not the reserved state id), `Diff::apply` succeeds and its output is that of
the stream truncated before the lacking group — the lacking record and every
record after it are silently omitted, while remaining unmatched edits are
still appended by the record loop — whereas `DiffableBase::visit` returns the
mandatory-UUID error.  (The freshness restriction is forced by
`apply_succeeds_but_visit_panics_on_duplicate`: with a repeated identifier
before the lacking group, `visit` panics in the unimplemented `todo!()` branch
instead of returning an error.) -/
theorem apply_skips_after_missing_uuid (d : Diff) (base : DiffableBase) (s : List RawField)
    (h : cleanUntilLack (base.entries.map Prod.fst) (skipHeader s).2 = true) :
    Diff.apply d s
      = (skipHeader s).1 ++ applyGo d.pepper d.delete d.edit (cutAtLack (skipHeader s).2)
    ∧ DiffableBase.visit base s = .error .missingUuid := by
  constructor
  · rw [Diff.apply, applyGo_cutAtLack d.pepper _ _ h]
  · exact visitGo_missingUuid base.pepper _ _ h _ base [] rfl

/-- Witness for `apply_skips_after_missing_uuid`: on `streamLack`, `apply`
keeps only the record before the lacking group and `visit` errors. -/
theorem apply_skips_after_missing_uuid_witness :
    Diff.apply (Diff.empty defaultBase) streamLack
      = (skipHeader streamLack).1
        ++ applyGo (Diff.empty defaultBase).pepper (Diff.empty defaultBase).delete
            (Diff.empty defaultBase).edit (cutAtLack (skipHeader streamLack).2)
    ∧ DiffableBase.visit defaultBase streamLack = .error .missingUuid :=
  apply_skips_after_missing_uuid (Diff.empty defaultBase) defaultBase streamLack
    (by simp [cleanUntilLack, splitRecord, groupUuid, skipHeader, RecField.new,
          eorTy, streamLack, uuid1, uuid2, crdtState, defaultBase])

/-- C10, counterexample to the claim as stated: on `streamDupLack` — the
record `uuid1` twice, then an identifier-lacking group — `apply` still
succeeds (omitting the lacking group), but `visit` does not *return an error*:
it hits the unimplemented `todo!()` of the `Entry::Occupied` branch (a panic,
the `occupiedTodo` outcome) before reaching the lacking group. -/
theorem apply_succeeds_but_visit_panics_on_duplicate :
    Diff.apply (Diff.empty defaultBase) streamDupLack
      = [(eorTy, []), (0x01, uuid1), (eorTy, []), (0x01, uuid1), (eorTy, [])]
    ∧ DiffableBase.visit defaultBase streamDupLack = .error .occupiedTodo
    ∧ VisitErr.occupiedTodo ≠ VisitErr.missingUuid := by
  refine ⟨?_, ?_, by decide⟩ <;>
    simp [Diff.apply, applyGo, emitNew, DiffableBase.visit, visitGo, fillEntry,
      splitRecord, groupUuid, mkField, RecField.new, eorTy, defaultBase,
      streamDupLack, uuid1, crdtState, alookup, aremove, skipHeader, Diff.empty]

/-! ## C9: the lock-file path -/

/-- C9: the lock-file path is the database path with extension `.plk`
(`.cfg.plk` for `.cfg` databases).  REFUTED on the code (code bug): Rust's
`Path::extension()` yields the extension *without* its leading dot, so the
source's comparison against the literal `".cfg"` never succeeds, and
`set_extension(".plk")` appends the dot-carrying argument after a fresh dot.
Both `vault.psafe3` and `vault.cfg` map to `vault..plk` — not the claimed
`vault.plk` / `vault.cfg.plk` (the convention of the upstream pwsafe code the
source's own doc comment cites). -/
theorem lock_file_name_double_dot :
    lock_file_name vaultDb = vaultDoubleDot
    ∧ lock_file_name vaultCfg = vaultDoubleDot
    ∧ vaultDoubleDot ≠ vaultPlk
    ∧ vaultDoubleDot ≠ vaultCfgPlk := by
  refine ⟨?_, ?_, ?_, ?_⟩ <;> decide

/-! ## C4: the producer barrier wait -/

/-- C4: each producer send emits its message followed by a `Sync` barrier with
the next sync point — that part holds — but the claim that the returned future
completes only once the published acknowledgement covers the barrier
(highest acked ≥ barrier) is REFUTED on the code (code bug): the wait
predicate is `sync_id.wrapping_sub(acked) < i64::MAX as u64`, which already
holds for an acknowledgement *below* the barrier (`acked = 0`, barrier `1`)
and fails for one just above it (`acked = 2`, barrier `1`). -/
theorem sync_wait_predicate_accepts_stale_ack :
    (∀ (p : Nat) (c : CommunicatorM),
      (send_diff c p).2 = [Msg.diff p, Msg.sync c.id c.sync_point_next]
      ∧ (send_diff c p).1.sync_point_next = c.sync_point_next + 1
      ∧ (send_remote c p ts5).2 = [Msg.remote p ts5, Msg.sync c.id c.sync_point_next]
      ∧ (rebaseSend Nat c).2 = [Msg.rebase, Msg.sync c.id c.sync_point_next])
    ∧ syncReadyPred 1 (some 0) = true
    ∧ syncReadyPred 1 (some 2) = false := by
  refine ⟨fun p c => ⟨rfl, rfl, rfl, rfl⟩, ?_, ?_⟩ <;> decide

/-! ## C5: acknowledgement order -/

/-- C5: a queued barrier `(needed, sp)` is acknowledged only when
`needed < applied` under the source's `AwaitTs` comparison, which is exactly:
`needed ≠ applied`, `needed.local ≤ applied.local` and
`needed.remote ≤ applied.remote` under the `UqTs` comparator (absent remotes
mapped to `NO_TS`); remote timestamps with equal `ts_ms` but distinct
`unique` are incomparable, and an incomparable head is never acknowledged. -/
theorem ack_only_on_strict_await_order :
    (∀ a b : AwaitTs,
      awaitLt a b = true
        ↔ (a ≠ b ∧ a.loc ≤ b.loc ∧ uqLe (uqOf a.remote) (uqOf b.remote) = true))
    ∧ (∀ (applied : AwaitTs) (q : List (AwaitTs × Nat)) (need : AwaitTs) (sp : Nat),
        (need, sp) ∈ (drainQueue applied q).2 → awaitLt need applied = true)
    ∧ (∀ t u : Timestamp, t.ts_ms = u.ts_ms → t.unique ≠ u.unique →
        uqCmpO (uqOf (some t)) (uqOf (some u)) = none)
    ∧ (∀ need applied : AwaitTs, awaitCmpO need applied = none →
        ∀ (q : List (AwaitTs × Nat)) (sp : Nat),
          (drainQueue applied ((need, sp) :: q)).2 = []) := by
  refine ⟨?_, ?_, ?_, ?_⟩
  · intro a b
    by_cases hab : a = b
    · simp [awaitLt, awaitCmpO, hab]
    · by_cases hle : a.loc ≤ b.loc ∧ uqLe (uqOf a.remote) (uqOf b.remote) = true
      · simp [awaitLt, awaitCmpO, hab, hle]
      · by_cases hge : b.loc ≤ a.loc ∧ uqGe (uqOf a.remote) (uqOf b.remote) = true
        · simp only [awaitLt, awaitCmpO, if_neg hab, if_neg hle, if_pos hge]
          constructor
          · intro hc
            exact absurd hc (by decide)
          · intro hc
            exact absurd ⟨hc.2.1, hc.2.2⟩ hle
        · simp only [awaitLt, awaitCmpO, if_neg hab, if_neg hle, if_neg hge]
          constructor
          · intro hc
            exact absurd hc (by decide)
          · intro hc
            exact absurd ⟨hc.2.1, hc.2.2⟩ hle
  · intro applied q
    induction q with
    | nil =>
      intro need sp hmem
      simp [drainQueue] at hmem
    | cons hd tl ih =>
      intro need sp hmem
      by_cases hlt : awaitLt hd.1 applied
      · rw [drainQueue] at hmem
        simp only [hlt, if_true, List.mem_cons] at hmem
        rcases hmem with hmem | hmem
        · have h1 : need = hd.1 := congrArg Prod.fst hmem
          rw [h1]
          exact hlt
        · exact ih need sp hmem
      · rw [drainQueue] at hmem
        simp [hlt] at hmem
  · intro t u h1 h2
    simp [uqCmpO, uqOf, h1, h2]
  · intro need applied hinc q sp
    have hlt : awaitLt need applied = false := by
      simp [awaitLt, hinc]
    simp [drainQueue, hlt]

/-- Witness for `ack_only_on_strict_await_order` at concrete inputs: a
barrier strictly below `applied` is drained (so the order holds of it), equal
`ts_ms` with distinct `unique` is incomparable, and an incomparable head
drains nothing. -/
theorem ack_only_on_strict_await_order_witness :
    awaitLt { loc := 0, remote := none } { loc := 1, remote := none } = true
    ∧ uqCmpO (uqOf (some { ts_ms := 5, unique := 1 }))
        (uqOf (some { ts_ms := 5, unique := 2 })) = none
    ∧ (drainQueue { loc := 0, remote := some { ts_ms := 5, unique := 1 } }
        [({ loc := 0, remote := some { ts_ms := 5, unique := 2 } }, 3)]).2 = [] := by
  refine ⟨?_, ?_, ?_⟩
  · exact ack_only_on_strict_await_order.2.1 { loc := 1, remote := none }
      [({ loc := 0, remote := none }, 9)] { loc := 0, remote := none } 9 (by decide)
  · exact ack_only_on_strict_await_order.2.2.1 { ts_ms := 5, unique := 1 }
      { ts_ms := 5, unique := 2 } rfl (by decide)
  · exact ack_only_on_strict_await_order.2.2.2
      { loc := 0, remote := some { ts_ms := 5, unique := 2 } }
      { loc := 0, remote := some { ts_ms := 5, unique := 1 } } (by decide) [] 3

/-! ## C7: soft and hard parse failures -/

/-- C7: a `Diff` message whose payload fails to deserialize is discarded (the
state is unchanged — nothing staged into `locals` — and the loop continues),
while a `Remote` message whose payload fails to deserialize terminates the
work loop with that error. -/
theorem diff_parse_soft_remote_parse_hard {P D : Type} (parse : P → Option D)
    (st : WState D) (p : P) (ts : Timestamp) (h : parse p = none) :
    processMsg parse st (Msg.diff p) = .ok st
    ∧ processMsg parse st (Msg.remote p ts) = .error .remoteParse := by
  constructor <;> simp [processMsg, h]

/-- Witness for `diff_parse_soft_remote_parse_hard` with the all-rejecting
parse at the initial state. -/
theorem diff_parse_soft_remote_parse_hard_witness :
    processMsg parseNone (wInit : WState Nat) (Msg.diff 5) = .ok wInit
    ∧ processMsg parseNone (wInit : WState Nat)
        (Msg.remote 5 { ts_ms := 3, unique := 1 }) = .error .remoteParse :=
  diff_parse_soft_remote_parse_hard parseNone wInit 5 { ts_ms := 3, unique := 1 } rfl

/-! ## C3: acknowledgement versus durability -/

/-- C3: an ack for `(id, sp)` is claimed to imply that every message the
producer sent with sync point `≤ sp` is durably absorbed.  REFUTED on the
code (code bug): `pending.local` is never incremented when a local diff is
staged, so a barrier records only the remote high-water mark.  In the trace
below, producer `7` sends `Diff 1` + `Sync 0` (iteration 1, lock scope
succeeds: diff `1` applied and on disk, ack `(7, 0)` fires correctly), then
`Diff 2` + `Sync 1` (iteration 2, lock acquisition fails with
`AlreadyExists`): the work loop still acknowledges `(7, 1)` — because
`applied = (1, none)` already exceeds the barrier's recorded
`pending = (0, none)` — while diff `2` sits in the `locals` staging buffer
and the on-disk file still reflects only diff `1`. -/
theorem work_loop_acks_before_local_durability :
    workStep parseAll wInit [Msg.diff 1, Msg.sync 7 0] (Env.ok none)
      = .ok (⟨⟨1, none⟩, ⟨0, none⟩, [(7, [])], false, [], [], [],
             ⟨[1], [], ([], [1])⟩⟩, [(7, 0)])
    ∧ workStep parseAll
        ⟨⟨1, none⟩, ⟨0, none⟩, [(7, [])], false, [], [], [], ⟨[1], [], ([], [1])⟩⟩
        [Msg.diff 2, Msg.sync 7 1] Env.lockBusy
      = .ok (⟨⟨1, none⟩, ⟨0, none⟩, [(7, [])], true, [2], [], [],
             ⟨[1], [], ([], [1])⟩⟩, [(7, 1)]) := by
  constructor <;> decide

/-! ## C6: rebase -/

theorem getLast?_cons_ne_none {α : Type} (a : α) (l : List α) :
    (a :: l).getLast? ≠ none := by
  intro hc
  have hs := List.getLast?_isSome.mpr (List.cons_ne_nil a l)
  rw [hc] at hs
  simp at hs

/-- C6 (amended): `PwsafeLock::rebase` on equal-length slices commits a prefix
per diff: the on-disk file is never touched; on success, the remote base is
the fold of all diffs and `remote_until` is `times.last()` (unchanged for
empty slices); on an error, the remote base is exactly the fold of the diffs
before the failing one, the failing diff fails on that base, and
`remote_until` is the timestamp of the last successfully applied diff
(unchanged if none applied).  The claim's biconditional
"`remote_until = times.last()` iff no error" is corrected to this directional
form — it fails when timestamps repeat
(`rebase_remote_until_equals_last_despite_error`). -/
theorem rebase_prefix_commit {D R E : Type} (applyD : R → D → Except E R)
    (st : RebaseSt R) (ds : List D) (ts : List Timestamp)
    (h : ds.length = ts.length) :
    (rebase applyD st ds ts).1.disk = st.disk
    ∧ ((rebase applyD st ds ts).2 = none →
        foldApply applyD st.remote ds = some (rebase applyD st ds ts).1.remote
        ∧ (rebase applyD st ds ts).1.remote_until
            = (match ts.getLast? with
               | none => st.remote_until
               | some t => some t))
    ∧ (∀ e, (rebase applyD st ds ts).2 = some e →
        ∃ k, k < ds.length
          ∧ foldApply applyD st.remote (ds.take k)
              = some (rebase applyD st ds ts).1.remote
          ∧ (∃ d, ds[k]? = some d
              ∧ applyD (rebase applyD st ds ts).1.remote d = .error e)
          ∧ (rebase applyD st ds ts).1.remote_until
              = (match (ts.take k).getLast? with
                 | none => st.remote_until
                 | some t => some t)) := by
  induction ds generalizing ts st with
  | nil =>
    have hts : ts = [] := by
      cases ts with
      | nil => rfl
      | cons t ts2 => simp at h
    subst hts
    refine ⟨rfl, ?_, ?_⟩
    · intro _
      exact ⟨rfl, rfl⟩
    · intro e he
      simp [rebase, rebaseGo] at he
  | cons d ds2 ih =>
    cases ts with
    | nil => simp at h
    | cons t ts2 =>
      have h2 : ds2.length = ts2.length := by simpa using h
      cases hap : applyD st.remote d with
      | error e0 =>
        have hr : rebase applyD st (d :: ds2) (t :: ts2) = (st, some e0) := by
          simp [rebase, rebaseGo, hap]
        rw [hr]
        refine ⟨rfl, ?_, ?_⟩
        · intro hc
          simp at hc
        · intro e he
          simp only at he
          have he2 : e0 = e := Option.some.inj he
          refine ⟨0, by simp, by simp [foldApply], ⟨d, by simp, ?_⟩, by simp⟩
          rw [← he2]
          exact hap
      | ok r2 =>
        have hr : rebase applyD st (d :: ds2) (t :: ts2)
            = rebase applyD { st with remote := r2, remote_until := some t } ds2 ts2 := by
          simp [rebase, rebaseGo, hap, List.zip]
        rw [hr]
        obtain ⟨ihdisk, ihok, iherr⟩ :=
          ih { st with remote := r2, remote_until := some t } ts2 h2
        refine ⟨ihdisk, ?_, ?_⟩
        · intro hnone
          obtain ⟨hfold, huntil⟩ := ihok hnone
          refine ⟨by simpa [foldApply, hap] using hfold, ?_⟩
          rw [huntil]
          cases ts2 with
          | nil => simp
          | cons t2 ts3 =>
            cases hgl : (t2 :: ts3).getLast? with
            | none => exact absurd hgl (getLast?_cons_ne_none t2 ts3)
            | some x => simp [List.getLast?_cons_cons, hgl]
        · intro e he
          obtain ⟨k, hk, hfold, ⟨dd, hdd, herr⟩, huntil⟩ := iherr e he
          refine ⟨k + 1, by simpa using hk,
            by simpa [foldApply, hap] using hfold,
            ⟨dd, by simpa using hdd, herr⟩, ?_⟩
          rw [huntil]
          cases htk : ts2.take k with
          | nil => simp [htk]
          | cons x xs =>
            cases hgl : (x :: xs).getLast? with
            | none => exact absurd hgl (getLast?_cons_ne_none x xs)
            | some y => simp [htk, List.getLast?_cons_cons, hgl]

/-- Witness for `rebase_prefix_commit` at a concrete successful rebase of one
diff. -/
theorem rebase_prefix_commit_witness :
    (rebase applyFail2 rb0 [1] [ts5]).1.disk = rb0.disk
    ∧ ((rebase applyFail2 rb0 [1] [ts5]).2 = none →
        foldApply applyFail2 rb0.remote [1]
            = some (rebase applyFail2 rb0 [1] [ts5]).1.remote
        ∧ (rebase applyFail2 rb0 [1] [ts5]).1.remote_until
            = (match [ts5].getLast? with
               | none => rb0.remote_until
               | some t => some t))
    ∧ (∀ e, (rebase applyFail2 rb0 [1] [ts5]).2 = some e →
        ∃ k, k < [1].length
          ∧ foldApply applyFail2 rb0.remote ([1].take k)
              = some (rebase applyFail2 rb0 [1] [ts5]).1.remote
          ∧ (∃ d, [1][k]? = some d
              ∧ applyFail2 (rebase applyFail2 rb0 [1] [ts5]).1.remote d = .error e)
          ∧ (rebase applyFail2 rb0 [1] [ts5]).1.remote_until
              = (match ([ts5].take k).getLast? with
                 | none => rb0.remote_until
                 | some t => some t)) :=
  rebase_prefix_commit applyFail2 rb0 [1] [ts5] rfl

/-- C6, counterexample to the biconditional of the claim as stated: with the
repeated timestamp `ts5` and a second diff that fails to apply, `rebase`
returns an error, yet `remote_until` (set by the successfully applied first
diff) equals `times.last()`. -/
theorem rebase_remote_until_equals_last_despite_error :
    (rebase applyFail2 rb0 [1, 2] [ts5, ts5]).2 = some ()
    ∧ (rebase applyFail2 rb0 [1, 2] [ts5, ts5]).1.remote_until = [ts5, ts5].getLast? := by
  constructor <;> decide

end PwsafeSpec
